import Mathlib

/-!
Verification of the `parser` package of go-parser (github.com/paulfdunn/go-parser).

The Go sources are shallowly embedded.  A compiled `regexp.Regexp` value is
modelled by the record of the operations the parser package invokes on it
(`Split`, `MatchString`, `FindAllStringSubmatch`, `ReplaceAllString`,
`ReplaceAllFunc`); a small executable regex engine (backtracking,
leftmost-first, greedy, with capture groups, mirroring Go regexp semantics for
the patterns used by the repository) instantiates that record for the concrete
patterns of the test corpus.  Go strings are Lean strings (positions are rune
positions; all corpus data is ASCII, where rune and byte positions agree), Go
slices are Lean lists, Go maps are association lists with Go assignment
semantics, and Go `int` fields are `Int` where the code handles negative
values and `Nat` where a negative value would make Go panic.  The channels of
`Scanner.Read` are modelled by the lists of values the single producer
goroutine pushes onto them.  Braces inside string literals are written with
the escapes `\x7b` and `\x7d`.
-/

namespace GoParser

/-- One item of a regex character class: a literal character, an inclusive
range, or one of the shorthand classes `\d`, `\w`, `\s`. -/
inductive ClassItem where
  | single (c : Char)
  | range (lo hi : Char)
  | digit
  | word
  | space
deriving Repr, DecidableEq

/-- Abstract syntax of the regular-expression subset used by the repository:
literals, character classes, the `^` text anchor, concatenation, alternation,
greedy star, and numbered capture groups.  `r+` is encoded as `r · r*`. -/
inductive Rx where
  | eps
  | chr (c : Char)
  | cls (items : List ClassItem)
  | beginText
  | cat (r1 r2 : Rx)
  | alt (r1 r2 : Rx)
  | star (r : Rx)
  | group (idx : Nat) (r : Rx)
deriving Repr, DecidableEq

/-- Greedy `+` as in Go regexp, encoded by unfolding once. -/
def Rx.plus (r : Rx) : Rx := .cat r (.star r)

/-- Does class item `it` accept character `c`?  Shorthands follow RE2:
`\d = [0-9]`, `\w = [0-9A-Za-z_]`, `\s = [\t\n\f\r ]`. -/
def itemMatch (it : ClassItem) (c : Char) : Bool :=
  match it with
  | .single a => a == c
  | .range lo hi => lo.toNat ≤ c.toNat && c.toNat ≤ hi.toNat
  | .digit => '0'.toNat ≤ c.toNat && c.toNat ≤ '9'.toNat
  | .word =>
    ('0'.toNat ≤ c.toNat && c.toNat ≤ '9'.toNat) ||
    ('A'.toNat ≤ c.toNat && c.toNat ≤ 'Z'.toNat) ||
    ('a'.toNat ≤ c.toNat && c.toNat ≤ 'z'.toNat) || c == '_'
  | .space => c == ' ' || c == '\t' || c == '\n' || c == '\x0c' || c == '\r'

/-- Capture list: entry `i` is the half-open span of group `i`, when set. -/
abbrev Caps := List (Option (Nat × Nat))

/-- Backtracking matcher in continuation-passing style: leftmost-first
alternation, greedy star (the preference order of Go regexp).  Star skips
empty-width iterations, as RE2 does.  `fuel` bounds the recursion depth; the
wrappers below always supply enough fuel for the patterns in this file. -/
def mtch : Nat → Rx → List Char → Nat → Caps →
    (Nat → Caps → Option (Nat × Caps)) → Option (Nat × Caps)
  | 0, _, _, _, _, _ => none
  | fuel + 1, r, s, pos, caps, k =>
    match r with
    | .eps => k pos caps
    | .chr c =>
      match s[pos]? with
      | some c2 => if c == c2 then k (pos + 1) caps else none
      | none => none
    | .cls items =>
      match s[pos]? with
      | some c2 => if items.any (itemMatch · c2) then k (pos + 1) caps else none
      | none => none
    | .beginText => if pos == 0 then k pos caps else none
    | .cat r1 r2 => mtch fuel r1 s pos caps (fun p c => mtch fuel r2 s p c k)
    | .alt r1 r2 =>
      match mtch fuel r1 s pos caps k with
      | some m => some m
      | none => mtch fuel r2 s pos caps k
    | .star r1 =>
      match mtch fuel r1 s pos caps
          (fun p c => if pos < p then mtch fuel (.star r1) s p c k else none) with
      | some m => some m
      | none => k pos caps
    | .group i r1 => mtch fuel r1 s pos caps (fun p c => k p (c.set i (some (pos, p))))

/-- Structural size of a pattern, used to compute a sufficient fuel. -/
def Rx.size : Rx → Nat
  | .eps => 1
  | .chr _ => 1
  | .cls _ => 1
  | .beginText => 1
  | .cat r1 r2 => r1.size + r2.size + 1
  | .alt r1 r2 => r1.size + r2.size + 1
  | .star r => r.size + 1
  | .group _ r => r.size + 1

/-- Try to match `re` at exactly position `pos` of `s`; on success return the
end position and the captures (entry 0 is the span of the whole match). -/
def matchAt (re : Rx) (ng : Nat) (s : List Char) (pos : Nat) : Option (Nat × Caps) :=
  mtch ((re.size + 2) * (s.length + 2)) re s pos (List.replicate (ng + 1) none)
    (fun p c => some (p, c.set 0 (some (pos, p))))

/-- Successive non-overlapping leftmost matches from position `p`, as in Go
`FindAll` with `n = -1`: after a non-empty match continue at its end, after an
empty match advance one rune.  Each entry is `(start, end, captures)`. -/
def findAllFrom : Nat → Rx → Nat → List Char → Nat → List (Nat × Nat × Caps)
  | 0, _, _, _, _ => []
  | fuel + 1, re, ng, s, p =>
    if p > s.length then []
    else
      match matchAt re ng s p with
      | some (e, caps) =>
        (p, e, caps) ::
          (if p < e then findAllFrom fuel re ng s e else findAllFrom fuel re ng s (e + 1))
      | none => if p < s.length then findAllFrom fuel re ng s (p + 1) else []

/-- The substring of `s` spanning positions `[a, b)`. -/
def subStr (s : List Char) (a b : Nat) : String := String.mk ((s.drop a).take (b - a))

/-- Render captures as Go `FindAllStringSubmatch` does: one string per group,
the empty string for a group that did not participate in the match. -/
def capsStrings (s : List Char) (caps : Caps) : List String :=
  caps.map fun o =>
    match o with
    | some (a, b) => subStr s a b
    | none => ""

/-- A pattern together with its capture-group count and its source text. -/
structure RxProg where
  ast : Rx
  ngroups : Nat
  expr : String

/-- All matches of `p` in `s` (spans and captures). -/
def RxProg.matches1 (p : RxProg) (s : List Char) : List (Nat × Nat × Caps) :=
  findAllFrom (s.length + 2) p.ast p.ngroups s 0

/-- The splitting loop of Go `Regexp.Split` (`n = -1`): walk the match spans,
cutting at every non-empty separator; the trailing piece is emitted unless the
last separator started exactly at the end of the text. -/
def splitCore (s : List Char) : List (Nat × Nat) → Nat → Nat → List String
  | [], beg, lastStart => if lastStart ≠ s.length then [subStr s beg s.length] else []
  | (a, b) :: rest, beg, _ =>
    if b ≠ 0 then subStr s beg a :: splitCore s rest b a else splitCore s rest beg a

/-- Go `Regexp.Split(s, -1)`, including the special case that a non-empty
pattern splits the empty string into one empty field. -/
def RxProg.splitS (p : RxProg) (s : String) : List String :=
  if 0 < p.expr.length ∧ s.length = 0 then [""]
  else splitCore s.data ((p.matches1 s.data).map fun m => (m.1, m.2.1)) 0 0

/-- Maximal leading run of decimal digits of a character list, and the rest. -/
def takeDigits : List Char → List Char × List Char
  | [] => ([], [])
  | c :: rest =>
    if c.isDigit then
      let (d, r) := takeDigits rest
      (c :: d, r)
    else ([], c :: rest)

/-- Decimal value of a digit list. -/
def digitsToNat (l : List Char) : Nat := l.foldl (fun n c => n * 10 + (c.toNat - '0'.toNat)) 0

/-- The text captured by group `i`, the empty string when it did not
participate (Go expands references to such groups to the empty string). -/
def groupStr (s : List Char) (caps : Caps) (i : Nat) : String :=
  match caps[i]? with
  | some (some (a, b)) => subStr s a b
  | _ => ""

/-- Go template expansion for replacement strings: `${n}` and `$n` reference
capture group `n`; any other text, including a dollar sign that does not start
a well-formed reference, is copied literally.  `fuel` bounds recursion; the
callers pass the template length plus one, which always suffices. -/
def expandTemplate (s : List Char) (caps : Caps) : Nat → List Char → List Char
  | 0, _ => []
  | _, [] => []
  | fuel + 1, '$' :: rest =>
    match rest with
    | '\x7b' :: rest2 =>
      match takeDigits rest2 with
      | (d, '\x7d' :: rest3) =>
        if d.isEmpty then '$' :: expandTemplate s caps fuel rest
        else (groupStr s caps (digitsToNat d)).data ++ expandTemplate s caps fuel rest3
      | _ => '$' :: expandTemplate s caps fuel rest
    | c :: rest2 =>
      if c.isDigit then
        let (d, rest3) := takeDigits (c :: rest2)
        (groupStr s caps (digitsToNat d)).data ++ expandTemplate s caps fuel rest3
      else '$' :: expandTemplate s caps fuel rest
    | [] => ['$']
  | fuel + 1, c :: rest => c :: expandTemplate s caps fuel rest

/-- Stitch the replacement of every match into the surrounding text, with the
replacement text produced by template expansion. -/
def glueTemplate (s tmpl : List Char) : List (Nat × Nat × Caps) → Nat → List Char
  | [], last => s.drop last
  | (a, b, caps) :: rest, last =>
    (s.drop last).take (a - last) ++ expandTemplate s caps (tmpl.length + 1) tmpl ++
      glueTemplate s tmpl rest b

/-- Stitch the replacement of every match into the surrounding text, with the
replacement text produced by a function of the matched text (no template
expansion), as in Go `ReplaceAllFunc`. -/
def glueFunc (s : List Char) (f : String → String) : List (Nat × Nat × Caps) → Nat → List Char
  | [], last => s.drop last
  | (a, b, _) :: rest, last =>
    (s.drop last).take (a - last) ++ (f (subStr s a b)).data ++ glueFunc s f rest b

/-- A compiled Go `*regexp.Regexp`, modelled extensionally by the operations
the parser package invokes on it. -/
structure Regexp where
  split : String → List String
  matchString : String → Bool
  findAllStringSubmatch : String → List (List String)
  replaceAllString : String → String → String
  replaceAllFunc : (String → String) → String → String

/-- The `Regexp` realized by the engine for a concrete pattern. -/
def RxProg.compile (p : RxProg) : Regexp where
  split := p.splitS
  matchString := fun s => !(p.matches1 s.data).isEmpty
  findAllStringSubmatch := fun s => (p.matches1 s.data).map fun m => capsStrings s.data m.2.2
  replaceAllString := fun src tmpl => String.mk (glueTemplate src.data tmpl.data (p.matches1 src.data) 0)
  replaceAllFunc := fun f src => String.mk (glueFunc src.data f (p.matches1 src.data) 0)

/-! ### The concrete patterns of the test corpus

Hand-compiled abstract syntax for each regex literal appearing in the
repository's regression example (`ExampleScanner_Extract_andHash`) and for the
field delimiter.  Groups are numbered by the order of their opening
parentheses, as in Go. -/

/-- Character class `[a-zA-Z_\.-]`. -/
def clsAlphaPunct : List ClassItem :=
  [.range 'a' 'z', .range 'A' 'Z', .single '_', .single '.', .single '-']

/-- Character class `[a-zA-Z0-9\.\-_:]`. -/
def clsAlnumPunct : List ClassItem :=
  [.range 'a' 'z', .range 'A' 'Z', .range '0' '9', .single '.', .single '-', .single '_',
    .single ':']

/-- The leading group `(^|\s+)` shared by several corpus patterns. -/
def grpLead : Rx := .group 1 (.alt .beginText (Rx.plus (.cls [.space])))

/-- Corpus extract pattern 1:
`(^|\s+)(([0-9]+[a-zA-Z_\.-]|[a-zA-Z_\.-]+[0-9])[a-zA-Z0-9\.\-_:]*)`. -/
def rx1 : RxProg where
  ast := .cat grpLead
    (.group 2 (.cat
      (.group 3 (.alt
        (.cat (Rx.plus (.cls [.range '0' '9'])) (.cls clsAlphaPunct))
        (.cat (Rx.plus (.cls clsAlphaPunct)) (.cls [.range '0' '9']))))
      (.star (.cls clsAlnumPunct))))
  ngroups := 3
  expr := "(^|\\s+)(([0-9]+[a-zA-Z_\\.-]|[a-zA-Z_\\.-]+[0-9])[a-zA-Z0-9\\.\\-_:]*)"

/-- Corpus extract pattern 2: `(^|\s+)([\w]+[:=])([\w:\._]+)`. -/
def rx2 : RxProg where
  ast := .cat grpLead
    (.cat (.group 2 (.cat (Rx.plus (.cls [.word])) (.cls [.single ':', .single '='])))
      (.group 3 (Rx.plus (.cls [.word, .single ':', .single '.', .single '_']))))
  ngroups := 3
  expr := "(^|\\s+)([\\w]+[:=])([\\w:\\._]+)"

/-- Corpus extract pattern 3: `(\()([\w:\.]+)(\))`. -/
def rx3 : RxProg where
  ast := .cat (.group 1 (.chr '('))
    (.cat (.group 2 (Rx.plus (.cls [.word, .single ':', .single '.'])))
      (.group 3 (.chr ')')))
  ngroups := 3
  expr := "(\\()([\\w:\\.]+)(\\))"

/-- Corpus extract pattern 4: `(^|\s+)(0x[a-fA-F0-9]+)`. -/
def rx4 : RxProg where
  ast := .cat grpLead
    (.group 2 (.cat (.chr '0') (.cat (.chr 'x')
      (Rx.plus (.cls [.range 'a' 'f', .range 'A' 'F', .range '0' '9'])))))
  ngroups := 2
  expr := "(^|\\s+)(0x[a-fA-F0-9]+)"

/-- Corpus extract pattern 5: `(^|\s+)([0-9\.:_]+)`. -/
def rx5 : RxProg where
  ast := .cat grpLead
    (.group 2 (Rx.plus (.cls [.range '0' '9', .single '.', .single ':', .single '_'])))
  ngroups := 2
  expr := "(^|\\s+)([0-9\\.:_]+)"

/-- The corpus input delimiter `\s\s+` (two or more whitespace characters). -/
def rxDelim : RxProg where
  ast := .cat (.cls [.space]) (Rx.plus (.cls [.space]))
  ngroups := 0
  expr := "\\s\\s+"

/-! ### MD5 (crypto/md5), RFC 1321

`Hash` in parser.go digests its input with MD5 and renders the digest in
lowercase hex.  The implementation below works on byte lists; 32-bit words
are naturals reduced modulo `2 ^ 32`. -/

/-- Reduce modulo `2 ^ 32`. -/
def m32 (n : Nat) : Nat := n % 4294967296

/-- Rotate a 32-bit word left by `s` bits. -/
def rotl32 (x s : Nat) : Nat := m32 ((x <<< s) ||| (x >>> (32 - s)))

/-- Bitwise complement of a 32-bit word. -/
def not32 (x : Nat) : Nat := x ^^^ 0xFFFFFFFF

/-- The 64 MD5 sine-derived constants. -/
def md5K : List Nat :=
  [0xd76aa478, 0xe8c7b756, 0x242070db, 0xc1bdceee, 0xf57c0faf, 0x4787c62a, 0xa8304613,
    0xfd469501, 0x698098d8, 0x8b44f7af, 0xffff5bb1, 0x895cd7be, 0x6b901122, 0xfd987193,
    0xa679438e, 0x49b40821, 0xf61e2562, 0xc040b340, 0x265e5a51, 0xe9b6c7aa, 0xd62f105d,
    0x02441453, 0xd8a1e681, 0xe7d3fbc8, 0x21e1cde6, 0xc33707d6, 0xf4d50d87, 0x455a14ed,
    0xa9e3e905, 0xfcefa3f8, 0x676f02d9, 0x8d2a4c8a, 0xfffa3942, 0x8771f681, 0x6d9d6122,
    0xfde5380c, 0xa4beea44, 0x4bdecfa9, 0xf6bb4b60, 0xbebfbc70, 0x289b7ec6, 0xeaa127fa,
    0xd4ef3085, 0x04881d05, 0xd9d4d039, 0xe6db99e5, 0x1fa27cf8, 0xc4ac5665, 0xf4292244,
    0x432aff97, 0xab9423a7, 0xfc93a039, 0x655b59c3, 0x8f0ccc92, 0xffeff47d, 0x85845dd1,
    0x6fa87e4f, 0xfe2ce6e0, 0xa3014314, 0x4e0811a1, 0xf7537e82, 0xbd3af235, 0x2ad7d2bb,
    0xeb86d391]

/-- The 64 MD5 per-round left-rotation amounts. -/
def md5S : List Nat :=
  [7, 12, 17, 22, 7, 12, 17, 22, 7, 12, 17, 22, 7, 12, 17, 22,
   5, 9, 14, 20, 5, 9, 14, 20, 5, 9, 14, 20, 5, 9, 14, 20,
   4, 11, 16, 23, 4, 11, 16, 23, 4, 11, 16, 23, 4, 11, 16, 23,
   6, 10, 15, 21, 6, 10, 15, 21, 6, 10, 15, 21, 6, 10, 15, 21]

/-- MD5 padding: append `0x80`, zero bytes to 56 mod 64, then the original
length in bits as 8 little-endian bytes. -/
def md5Pad (msg : List Nat) : List Nat :=
  let zeros := (119 - msg.length % 64) % 64
  msg ++ 0x80 :: List.replicate zeros 0 ++
    (List.range 8).map fun i => msg.length * 8 / 2 ^ (8 * i) % 256

/-- Split a byte list into 64-byte blocks (`fuel` bounds the recursion and is
always supplied as the list length plus one, which suffices since every block
consumes at least one element). -/
def toBlocksAux : Nat → List Nat → List (List Nat)
  | 0, _ => []
  | _, [] => []
  | fuel + 1, l => l.take 64 :: toBlocksAux fuel (l.drop 64)

/-- Split a byte list into 64-byte blocks. -/
def toBlocks (l : List Nat) : List (List Nat) := toBlocksAux (l.length + 1) l

/-- Decode a 64-byte block into 16 little-endian 32-bit words. -/
def blockWords (b : List Nat) : List Nat :=
  (List.range 16).map fun j =>
    b.getD (4 * j) 0 + 256 * b.getD (4 * j + 1) 0 + 65536 * b.getD (4 * j + 2) 0 +
      16777216 * b.getD (4 * j + 3) 0

/-- One MD5 round step on state `(a, b, c, d)`. -/
def md5Step (m : List Nat) (st : Nat × Nat × Nat × Nat) (i : Nat) : Nat × Nat × Nat × Nat :=
  let (a, b, c, d) := st
  let fg : Nat × Nat :=
    if i < 16 then ((b &&& c) ||| (not32 b &&& d), i)
    else if i < 32 then ((d &&& b) ||| (not32 d &&& c), (5 * i + 1) % 16)
    else if i < 48 then (b ^^^ c ^^^ d, (3 * i + 5) % 16)
    else (c ^^^ (b ||| not32 d), 7 * i % 16)
  let f := m32 (fg.1 + a + md5K.getD i 0 + m.getD fg.2 0)
  (d, m32 (b + rotl32 f (md5S.getD i 0)), b, c)

/-- Process one 64-byte block. -/
def md5Block (st : Nat × Nat × Nat × Nat) (block : List Nat) : Nat × Nat × Nat × Nat :=
  let m := blockWords block
  let r := (List.range 64).foldl (md5Step m) st
  (m32 (st.1 + r.1), m32 (st.2.1 + r.2.1), m32 (st.2.2.1 + r.2.2.1), m32 (st.2.2.2 + r.2.2.2))

/-- A 32-bit word as 4 little-endian bytes. -/
def le4 (n : Nat) : List Nat := [n % 256, n / 256 % 256, n / 65536 % 256, n / 16777216 % 256]

/-- The MD5 digest (16 bytes) of a byte list. -/
def md5Bytes (msg : List Nat) : List Nat :=
  let st := (toBlocks (md5Pad msg)).foldl md5Block
    (0x67452301, 0xefcdab89, 0x98badcfe, 0x10325476)
  le4 st.1 ++ le4 st.2.1 ++ le4 st.2.2.1 ++ le4 st.2.2.2

/-- Lowercase hex digit. -/
def hexDigit (n : Nat) : Char :=
  if n < 10 then Char.ofNat ('0'.toNat + n) else Char.ofNat ('a'.toNat + n - 10)

/-- Lowercase hex rendering of a byte list, two digits per byte, as Go
`fmt.Sprintf("%x", bytes)`. -/
def hexOfBytes (l : List Nat) : String :=
  String.mk (l.foldr (fun b acc => hexDigit (b / 16 % 16) :: hexDigit (b % 16) :: acc) [])

/-- UTF-8 encoding of one character (Go strings are UTF-8 bytes). -/
def charUtf8 (c : Char) : List Nat :=
  let n := c.toNat
  if n < 0x80 then [n]
  else if n < 0x800 then [0xC0 + n / 64, 0x80 + n % 64]
  else if n < 0x10000 then [0xE0 + n / 4096, 0x80 + n / 64 % 64, 0x80 + n % 64]
  else [0xF0 + n / 262144, 0x80 + n / 4096 % 64, 0x80 + n / 64 % 64, 0x80 + n % 64]

/-- The UTF-8 bytes of a string. -/
def strBytes (s : String) : List Nat := s.data.foldr (fun c acc => charUtf8 c ++ acc) []

/-- Output format of `Hash` (parser.go): a quoted hex string or an Sqlite3
blob literal (`HASH_FORMAT_STRING` and `HASH_FORMAT_SQL`). -/
inductive HashFormat where
  | STRING
  | SQL
deriving Repr, DecidableEq

/-- Function `Hash` from parser.go: the MD5 digest of the input rendered per the
requested format.  In Go the function also returns the error of
`io.WriteString`, which is always nil for an md5 digest writer, so the error
return is omitted from the model. -/
def Hash (input : String) (format : HashFormat) : String :=
  let hx := hexOfBytes (md5Bytes (strBytes input))
  match format with
  | .STRING => "'0x" ++ hx ++ "'"
  | .SQL => "x'" ++ hx ++ "'"

/-! ### Date-time replacement (dateTimeToUnixEpoch) -/

/-- Leap year in the proleptic Gregorian calendar used by Go `time`. -/
def isLeap (y : Int) : Bool := y % 4 == 0 && (y % 100 != 0 || y % 400 == 0)

/-- Length of month `m` of year `y`. -/
def daysInMonth (y : Int) (m : Nat) : Nat :=
  match m with
  | 1 => 31
  | 2 => if isLeap y then 29 else 28
  | 3 => 31
  | 4 => 30
  | 5 => 31
  | 6 => 30
  | 7 => 31
  | 8 => 31
  | 9 => 30
  | 10 => 31
  | 11 => 30
  | 12 => 31
  | _ => 0

/-- Days from the Unix epoch to civil date `y-m-d` (Gregorian; the
days-from-civil algorithm).  All intermediate divisions have non-negative
operands for the dates producible here except `y = -1`, where every integer
division convention agrees. -/
def daysFromCivil (y : Int) (m d : Nat) : Int :=
  let yAdj : Int := if m ≤ 2 then y - 1 else y
  let era : Int := (if 0 ≤ yAdj then yAdj else yAdj - 399) / 400
  let yoe : Int := yAdj - era * 400
  let mp : Int := if 2 < m then (m : Int) - 3 else (m : Int) + 9
  let doy : Int := (153 * mp + 2) / 5 + (d : Int) - 1
  let doe : Int := yoe * 365 + yoe / 4 - yoe / 100 + doy
  era * 146097 + doe - 719468

/-- Parse a string against the Go `time.DateTime` layout
`2006-01-02 15:04:05` (UTC): exactly four year digits, two digits for every
other field, literal separators, and the range checks Go `time.Parse`
performs (month, day for the month and year, hour below 24, minute and second
below 60). -/
def parseDateTime (s : String) : Option (Int × Nat × Nat × Nat × Nat × Nat) :=
  match s.data with
  | [y1, y2, y3, y4, c1, mo1, mo2, c2, d1, d2, c3, h1, h2, c4, mi1, mi2, c5, e1, e2] =>
    if [y1, y2, y3, y4, mo1, mo2, d1, d2, h1, h2, mi1, mi2, e1, e2].all (·.isDigit) &&
        c1 == '-' && c2 == '-' && c3 == ' ' && c4 == ':' && c5 == ':' then
      let y : Int := (digitsToNat [y1, y2, y3, y4] : Nat)
      let mo := digitsToNat [mo1, mo2]
      let d := digitsToNat [d1, d2]
      let h := digitsToNat [h1, h2]
      let mi := digitsToNat [mi1, mi2]
      let sec := digitsToNat [e1, e2]
      if 1 ≤ mo ∧ mo ≤ 12 ∧ 1 ≤ d ∧ d ≤ daysInMonth y mo ∧ h ≤ 23 ∧ mi ≤ 59 ∧ sec ≤ 59 then
        some (y, mo, d, h, mi, sec)
      else none
    else none
  | _ => none

/-- Function `dateTimeToUnixEpoch` from parser.go: `time.Parse(time.DateTime, input)`
with the error ignored, then `fmt.Sprint(t.Unix())`.  A failed parse leaves
Go's zero time (January 1 of year 1, UTC), whose Unix seconds are
-62135596800.  In particular a date-time using the dash separator allowed by
`DATE_TIME_REGEX` fails the space-separator layout and yields the zero time. -/
def dateTimeToUnixEpoch (input : String) : String :=
  match parseDateTime input with
  | some (y, mo, d, h, mi, sec) =>
    toString (daysFromCivil y mo d * 86400 + ((h * 3600 + mi * 60 + sec : Nat) : Int))
  | none => toString (-62135596800 : Int)

/-! ### Go maps as association lists -/

/-- Go map assignment `m[k] = v`: overwrite the entry for `k` or append one. -/
def setA {α : Type} : List (String × α) → String → α → List (String × α)
  | [], k, v => [(k, v)]
  | (k2, v2) :: rest, k, v => if k2 = k then (k, v) :: rest else (k2, v2) :: setA rest k v

/-- Go map read `m[k]` (when the key is present). -/
def lookupA {α : Type} : List (String × α) → String → Option α
  | [], _ => none
  | (k2, v2) :: rest, k => if k2 = k then some v2 else lookupA rest k

/-! ### The parser data model -/

/-- Constant `DATE_TIME_REGEX` from parser.go. -/
def DATE_TIME_REGEX : String :=
  "(\\d\x7b4\x7d-\\d\x7b2\x7d-\\d\x7b2\x7d[ -]\\d\x7b2\x7d:\\d\x7b2\x7d:\\d\x7b2\x7d)"

/-- Type `Extract` (parser.go): an extraction rule.  `Columns` and `Submatch` are
Go `int`s; a negative value in either makes Go panic on an index expression,
so they are modelled as naturals (the domain on which the code is defined). -/
structure Extract where
  Columns : List Nat
  RegexString : String
  Submatch : Nat
  Token : String
  regex : Regexp

/-- Type `Replacement` (parser.go): a replacement rule. -/
structure Replacement where
  Replacement : String
  RegexString : String
  regex : Regexp

/-- Error values produced by the modelled operations, mirroring the
`fmt.Errorf` payloads of parser.go. -/
inductive PError where
  | fieldCountMismatch (expected : Int) (actual : Nat)
  | submatchOutOfRange (submatch : Nat) (sbm : List String) (regexString : String)
deriving Repr, DecidableEq

/-- Type `Scanner` (parser.go).  The fields that only serve I/O plumbing
(`dataChan`, `errorChan`, `file`, `scanner`, `dataDirectory`,
`processedInputDirectory`, `sqlQuoteColumns`) are not part of the model; the
channel-producing `Read` is modelled separately on `BufStream`.
`expectedFieldCount` is a Go `int` whose negative values are handled by the
code, hence `Int`; `HashColumns` entries index into slices, hence `Nat`. -/
structure Scanner where
  HashColumns : List Nat
  HashCounts : List (String × Nat)
  HashMap : List (String × String)
  OutputDelimiter : String
  expectedFieldCount : Int
  extract : List Extract
  inputDelimiter : Regexp
  negativeFilter : Option Regexp
  positiveFilter : Option Regexp
  replace : List Replacement

/-! ### The line-transformation operations -/

/-- The Go condition `scnr.negativeFilter != nil && scnr.negativeFilter.MatchString(row)`. -/
def negMatches (scnr : Scanner) (row : String) : Bool :=
  match scnr.negativeFilter with
  | some f => f.matchString row
  | none => false

/-- The Go condition `scnr.positiveFilter != nil && !scnr.positiveFilter.MatchString(row)`. -/
def posRejects (scnr : Scanner) (row : String) : Bool :=
  match scnr.positiveFilter with
  | some f => !f.matchString row
  | none => false

/-- Method `Scanner.Filter` (parser.go): true means drop the row. -/
def Scanner.Filter (scnr : Scanner) (row : String) : Bool :=
  if negMatches scnr row then true
  else if posRejects scnr row then true
  else false

/-- One iteration of the `Scanner.Replace` loop: the special case for
`DATE_TIME_REGEX` replaces via `dateTimeToUnixEpoch`, every other rule
replaces via the rule's template. -/
def replacementApply (row : String) (rplc : Replacement) : String :=
  if rplc.RegexString = DATE_TIME_REGEX then rplc.regex.replaceAllFunc dateTimeToUnixEpoch row
  else rplc.regex.replaceAllString row rplc.Replacement

/-- The `for _, rplc := range scnr.replace` loop of `Scanner.Replace`. -/
def replaceLoop : List Replacement → String → String
  | [], row => row
  | rplc :: rest, row => replaceLoop rest (replacementApply row rplc)

/-- Method `Scanner.Replace` (parser.go). -/
def Scanner.Replace (scnr : Scanner) (row : String) : String :=
  replaceLoop scnr.replace row

/-- Method `Scanner.Split` (parser.go): split on the input delimiter; an error is
returned (together with the fields) whenever the field count differs from
`expectedFieldCount`, with no special case for a zero expectation. -/
def Scanner.Split (scnr : Scanner) (row : String) : List String × Option PError :=
  let splt := scnr.inputDelimiter.split row
  if (splt.length : Int) ≠ scnr.expectedFieldCount then
    (splt, some (.fieldCountMismatch scnr.expectedFieldCount splt.length))
  else (splt, none)

/-- The `for _, sbm := range sbms` loop of `Scanner.Extract`: an out-of-range
submatch index records an error and skips the match, otherwise the submatch
string is appended. -/
def extractMatches (extrct : Extract) :
    List (List String) → List String → List PError → List String × List PError
  | [], extracts, errors => (extracts, errors)
  | sbm :: rest, extracts, errors =>
    if h : sbm.length ≤ extrct.Submatch then
      extractMatches extrct rest extracts
        (errors ++ [.submatchOutOfRange extrct.Submatch sbm extrct.RegexString])
    else
      extractMatches extrct rest (extracts ++ [sbm.get ⟨extrct.Submatch, by omega⟩]) errors

/-- The `for ec := range extrct.Columns` loop of `Scanner.Extract`: columns at
or beyond the field count are skipped; otherwise matches are collected and the
field is rewritten in place with the rule's token. -/
def extractColumns (extrct : Extract) :
    List Nat → List String → List String → List PError → List String × List String × List PError
  | [], row, extracts, errors => (row, extracts, errors)
  | c :: cols, row, extracts, errors =>
    if h : c < row.length then
      let v := row.get ⟨c, h⟩
      let sbms := extrct.regex.findAllStringSubmatch v
      let p := extractMatches extrct sbms extracts errors
      extractColumns extrct cols (row.set c (extrct.regex.replaceAllString v extrct.Token)) p.1 p.2
    else extractColumns extrct cols row extracts errors

/-- The `for _, extrct := range scnr.extract` loop of `Scanner.Extract`:
rules with an empty pattern (comment-only rules) are skipped. -/
def extractRules :
    List Extract → List String → List String → List PError → List String × List String × List PError
  | [], row, extracts, errors => (row, extracts, errors)
  | extrct :: rest, row, extracts, errors =>
    if extrct.RegexString = "" then extractRules rest row extracts errors
    else
      let t := extractColumns extrct extrct.Columns row extracts errors
      extractRules rest t.1 t.2.1 t.2.2

/-- Method `Scanner.Extract` (parser.go).  Go mutates the `row` slice in place and
returns `(extracts, errors)`; the model returns the rewritten row first. -/
def Scanner.Extract (scnr : Scanner) (row : List String) :
    List String × List String × List PError :=
  extractRules scnr.extract row [] []

/-! ### Hashing over split columns -/

/-- The hash-column gather loop of `SplitsExcludeHashColumns`: `splits[v]` for
each configured column, `none` when any access would be out of bounds (a
runtime panic in Go). -/
def getAll (splits : List String) : List Nat → Option (List String)
  | [] => some []
  | v :: rest =>
    match splits[v]?, getAll splits rest with
    | some s, some l => some (s :: l)
    | _, _ => none

/-- The hash key `SplitsExcludeHashColumns` files its maps under: the hash of
the hash-column values joined by the output delimiter. -/
def hashKey (scnr : Scanner) (splits : List String) (fmt : HashFormat) : Option String :=
  (getAll splits scnr.HashColumns).map fun hs =>
    Hash (String.intercalate scnr.OutputDelimiter hs) fmt

/-- The `for i := range splits` loop of `SplitsExcludeHashColumns`: drop every
field whose index equals the head of the remaining hash-column list, inserting
the hash in place of the first dropped field. -/
def sehcLoop (hash : String) : List String → Nat → List Nat → Bool → List String
  | [], _, _, _ => []
  | s :: rest, i, shc, hashInserted =>
    match shc with
    | [] => s :: sehcLoop hash rest (i + 1) [] hashInserted
    | c :: shc2 =>
      if i = c then
        if hashInserted then sehcLoop hash rest (i + 1) shc2 true
        else hash :: sehcLoop hash rest (i + 1) shc2 true
      else s :: sehcLoop hash rest (i + 1) (c :: shc2) hashInserted

/-- Method `Scanner.SplitsExcludeHashColumns` (parser.go).  Note that
`sort.IntSlice(scnr.HashColumns)` in the Go source is a type conversion, not a
sort, so the columns are consumed in their configured order.  The unguarded
access `splits[v]` panics in Go when `v` is out of range; the model returns
`none` there.  `Hash` cannot fail (see `Hash`), so the error return of the Go
function is never produced by hashing. -/
def Scanner.SplitsExcludeHashColumns (scnr : Scanner) (splits : List String)
    (hashFormat : HashFormat) : Option (List String × Scanner) :=
  let sortedHashColumns := scnr.HashColumns
  match getAll splits sortedHashColumns with
  | none => none
  | some hashSplits =>
    let hashString := String.intercalate scnr.OutputDelimiter hashSplits
    let hash := Hash hashString hashFormat
    some (sehcLoop hash splits 0 sortedHashColumns false,
      { scnr with
        HashMap := setA scnr.HashMap hash hashString,
        HashCounts := setA scnr.HashCounts hash ((lookupA scnr.HashCounts hash).getD 0 + 1) })

/-! ### The Read producer -/

/-- Observable behaviour of the `bufio.Scanner` feeding `Scanner.Read`:
`events` lists, in order, each successful `Scan()` as the pair of `Text()` and
the value of `Err()` at that moment (non-nil when a read error was recorded
while buffered lines were still being delivered); `terminalErr` is the value
of `Err()` once `Scan()` returns false (`none` for clean end of input).  The
error type is abstract. -/
structure BufStream (ε : Type) where
  events : List (String × Option ε)
  terminalErr : Option ε

/-- The `for scnr.scanner.Scan()` loop of `Scanner.Read`: on a non-nil
`Err()` the error is pushed and the row is skipped (`continue`); otherwise the
row is pushed.  The loop ends when `Scan()` returns false; nothing after the
loop reads `Err()`, so `terminalErr` is never examined.  The post-loop file
relocation concerns no claim and is not modelled. -/
def readLoop {ε : Type} : List (String × Option ε) → List String × List ε
  | [] => ([], [])
  | (row, none) :: rest =>
    let p := readLoop rest
    (row :: p.1, p.2)
  | (_, some err) :: rest =>
    let p := readLoop rest
    (p.1, err :: p.2)

/-- Method `Scanner.Read` (parser.go), as the contents its producer goroutine pushes
onto the data channel and the error channel (in push order). -/
def scanRead {ε : Type} (st : BufStream ε) : List String × List ε :=
  readLoop st.events

/-! ### Specification-side reference definitions

These definitions follow the wording of the specification (spec.md §4.5,
§4.6); the theorems below compare them with the implementation-side
definitions translated from parser.go. -/

/-- Spec §4.5, per match: "For every match, if the configured submatch index
is out of range for that match's capture groups, ... skip that match;
otherwise append the submatch string": the in-range submatch strings of all
matches, in match order. -/
def fieldExtracts (r : Extract) (v : String) : List String :=
  (r.regex.findAllStringSubmatch v).filterMap fun sbm => sbm[r.Submatch]?

/-- Spec §4.5, per match: "record a non-fatal error" for each match whose
capture-group list is too short, in match order. -/
def fieldErrors (r : Extract) (v : String) : List PError :=
  ((r.regex.findAllStringSubmatch v).filter fun sbm => sbm.length ≤ r.Submatch).map
    fun sbm => .submatchOutOfRange r.Submatch sbm r.RegexString

/-- Spec §4.5, per column: skip columns beyond the field count, otherwise
collect the field's extracts and errors and rewrite the field with the token;
output order is column order with match order innermost. -/
def extractColumnsSpec (r : Extract) : List Nat → List String → List String × List String × List PError
  | [], row => (row, [], [])
  | c :: cols, row =>
    if h : c < row.length then
      let v := row.get ⟨c, h⟩
      let t := extractColumnsSpec r cols (row.set c (r.regex.replaceAllString v r.Token))
      (t.1, fieldExtracts r v ++ t.2.1, fieldErrors r v ++ t.2.2)
    else extractColumnsSpec r cols row

/-- Spec §4.5, per rule: rules apply in declaration order (comment-only rules
with an empty pattern are skipped), each seeing the row as rewritten by the
previous rules; output order is rule order outermost. -/
def extractSpec : List Extract → List String → List String × List String × List PError
  | [], row => (row, [], [])
  | r :: rest, row =>
    if r.RegexString = "" then extractSpec rest row
    else
      let t := extractColumnsSpec r r.Columns row
      let u := extractSpec rest t.1
      (u.1, t.2.1 ++ u.2.1, t.2.2 ++ u.2.2)

/-- Spec §4.6: the fields kept by the hash reduction, namely those whose
absolute index (counting from `i`) is not a hash column. -/
def keepNotIn : List String → Nat → List Nat → List String
  | [], _, _ => []
  | x :: xs, i, hc => if i ∈ hc then keepNotIn xs (i + 1) hc else x :: keepNotIn xs (i + 1) hc

/-- A sequence of `SplitsExcludeHashColumns` calls on one scanner, threading
the hash state; `none` as soon as one call panics. -/
def runSplits (scnr : Scanner) (fmt : HashFormat) : List (List String) → Option Scanner
  | [] => some scnr
  | splits :: rest =>
    match scnr.SplitsExcludeHashColumns splits fmt with
    | none => none
    | some (_, scnr2) => runSplits scnr2 fmt rest

/-! ### Concrete fixtures -/

/-- Placeholder for `Regexp`-typed fields that a fixture never exercises
(e.g. the input delimiter of a scanner used only for `Extract`). -/
def trivialRegexp : Regexp where
  split := fun s => [s]
  matchString := fun _ => false
  findAllStringSubmatch := fun _ => []
  replaceAllString := fun s _ => s
  replaceAllFunc := fun _ s => s

/-- A scanner with no rules and empty hash state, from which the concrete
fixtures are built by field update. -/
def baseScanner : Scanner where
  HashColumns := []
  HashCounts := []
  HashMap := []
  OutputDelimiter := ""
  expectedFieldCount := 0
  extract := []
  inputDelimiter := trivialRegexp
  negativeFilter := none
  positiveFilter := none
  replace := []

/-- The five extract rules of the regression example
`ExampleScanner_Extract_andHash` (parser_test.go), with their tokens. -/
def extractsC3 : List Extract :=
  [{ Columns := [7], RegexString := rx1.expr, Submatch := 2,
     Token := "$\x7b1\x7d\x7b\x7d", regex := rx1.compile },
   { Columns := [7], RegexString := rx2.expr, Submatch := 3,
     Token := "$\x7b1\x7d$\x7b2\x7d\x7b\x7d", regex := rx2.compile },
   { Columns := [7], RegexString := rx3.expr, Submatch := 2,
     Token := "$\x7b1\x7d\x7b\x7d$\x7b3\x7d", regex := rx3.compile },
   { Columns := [7], RegexString := rx4.expr, Submatch := 2,
     Token := "$\x7b1\x7d\x7b\x7d", regex := rx4.compile },
   { Columns := [7], RegexString := rx5.expr, Submatch := 2,
     Token := "$\x7b1\x7d\x7b\x7d", regex := rx5.compile }]

/-- The scanner of the regression example: corpus delimiter, corpus extract
rules, hash columns 3, 4, 5, 7, output delimiter `|`. -/
def scnrC3 : Scanner :=
  { baseScanner with
    HashColumns := [3, 4, 5, 7]
    OutputDelimiter := "|"
    extract := extractsC3
    inputDelimiter := rxDelim.compile }

/-- The first data row of test_extract.txt after splitting. -/
def rowC3 : List String :=
  ["2023-10-07 12:00:00.00 MDT", "0", "0", "notification", "debug", "multi word type",
    "sw_a", "Unit 12.Ab.34 message (789)"]

/-- Scanner with the corpus delimiter and `ExpectedFieldCount = 0`. -/
def scnrSplit0 : Scanner := { baseScanner with inputDelimiter := rxDelim.compile }

/-- Scanner with the corpus delimiter and `ExpectedFieldCount = 3`. -/
def scnrSplit3 : Scanner :=
  { baseScanner with expectedFieldCount := 3, inputDelimiter := rxDelim.compile }

/-- Scanner with the corpus delimiter and `ExpectedFieldCount = 4`. -/
def scnrSplit4 : Scanner :=
  { baseScanner with expectedFieldCount := 4, inputDelimiter := rxDelim.compile }

/-- First member of a published 72-byte printable-ASCII MD5 collision pair
(single-block collision, M. Stevens). -/
def sColl1 : String := "TEXTCOLLBYfGiJUETHQ4hAcKSMd5zYpgqf1YRDhkmxHkhPWptrkoyz28wnI9V0aHeAuaKnak"

/-- Second member of the collision pair: differs from `sColl1` in one
character yet has the same MD5 digest. -/
def sColl2 : String := "TEXTCOLLBYfGiJUETHQ4hEcKSMd5zYpgqf1YRDhkmxHkhPWptrkoyz28wnI9V0aHeAuaKnak"

/-- Scanner hashing the single column 0 (concatenation is the field itself). -/
def scnrHash1 : Scanner := { baseScanner with HashColumns := [0] }

/-- Scanner hashing columns 1 and 2 with output delimiter `|`. -/
def scnrHash12 : Scanner :=
  { baseScanner with HashColumns := [1, 2], OutputDelimiter := "|" }

/-- The concatenation `SplitsExcludeHashColumns` hashes: the hash-column
values joined by the output delimiter (`none` when a column is out of
range). -/
def concatOf (scnr : Scanner) (splits : List String) : Option String :=
  (getAll splits scnr.HashColumns).map (String.intercalate scnr.OutputDelimiter)

/-- Expected occurrence count after a scan: starting from `old`, add the
number `n` of processed rows that produced the hash; absent before and not
produced means still absent. -/
def countsSpec (old : Option Nat) (n : Nat) : Option Nat :=
  match old, n with
  | none, 0 => none
  | none, n + 1 => some (n + 1)
  | some m, n => some (m + n)

/-- Expected stored value after a scan: the concatenation of the most recent
processed row that produced hash `h`, else the prior value `old`. -/
def lastValSpec (scnr : Scanner) (fmt : HashFormat) (h : String)
    (rows : List (List String)) (old : Option String) : Option String :=
  match rows.reverse.find? fun r => decide (hashKey scnr r fmt = some h) with
  | some r => concatOf scnr r
  | none => old

/-- Scanner used to exercise hash-state monotonicity from a non-empty map. -/
def scnrPre : Scanner :=
  { scnrHash1 with HashMap := [("k0", "v0")], HashCounts := [("k0", 2)] }

/-- The hash state `scnrPre` reaches after one reduction of the row `["a"]`. -/
def scnrPost : Scanner :=
  { scnrPre with
    HashMap := setA scnrPre.HashMap (Hash "a" .STRING) "a",
    HashCounts := setA scnrPre.HashCounts (Hash "a" .STRING)
      ((lookupA scnrPre.HashCounts (Hash "a" .STRING)).getD 0 + 1) }

/-! ## Theorems -/

set_option maxRecDepth 16000

/-- The Read loop delivers exactly the rows whose `Err()` was nil and pushes
exactly the errors observed alongside buffered rows, in order. -/
theorem readLoop_spec {ε : Type} (ev : List (String × Option ε)) :
    readLoop ev =
      (ev.filterMap fun p => match p.2 with | none => some p.1 | some _ => none,
       ev.filterMap fun p => p.2) := by
  induction ev with
  | nil => rfl
  | cons p rest ih =>
    obtain ⟨row, oe⟩ := p
    cases oe <;> simp [readLoop, ih]

/-- Claim C2 (amended): the rows pushed onto the data channel are exactly the
successful scans with nil `Err()`, and the errors pushed onto the error
channel are exactly the errors `Err()` reported alongside buffered rows (the
row delivered with such an error is dropped and the worker continues); a read
error that makes `Scan()` return false terminates the loop and is never
pushed, so terminal read errors are not observable on the error channel. -/
theorem claimC2_amended :
    ∀ (ε : Type) (st : BufStream ε),
      (scanRead st).1 =
        (st.events.filterMap fun p => match p.2 with | none => some p.1 | some _ => none) ∧
      (scanRead st).2 = (st.events.filterMap fun p => p.2) ∧
      ∀ e, scanRead { st with terminalErr := e } = scanRead st := by
  intro ε st
  refine ⟨?_, ?_, fun e => rfl⟩ <;> rw [scanRead, readLoop_spec]

/-- Claim C2 counterexample: a stream whose read error surfaces only as
`Scan()` returning false (the usual case: no buffered lines accompany the
failure) pushes nothing onto the error channel — the read error is silently
dropped, contradicting the claim that every read error is observable. -/
theorem claimC2_counterexample :
    (scanRead { events := [("line1", none)], terminalErr := some "read failure" :
        BufStream String }).2 = [] ∧
    ({ events := [("line1", none)], terminalErr := some "read failure" :
        BufStream String }).terminalErr ≠ none := by
  exact ⟨rfl, by simp⟩

/-- Claim C1 (amended): Split returns the delimiter-split fields and returns
the field-count-mismatch error, with the fields still usable alongside it,
exactly when the field count differs from `expectedFieldCount` — there is no
special case for `expectedFieldCount = 0` (the comparison is unconditional).
The spec's concrete example holds: on "a  b  c" with delimiter `\s\s+`,
expected count 3 gives the three fields and no error, expected count 4 the
same three fields plus the mismatch error. -/
theorem claimC1_amended :
    (∀ (scnr : Scanner) (row : String),
      (scnr.Split row).1 = scnr.inputDelimiter.split row ∧
      ((scnr.Split row).2.isSome ↔
        ((scnr.inputDelimiter.split row).length : Int) ≠ scnr.expectedFieldCount)) ∧
    scnrSplit3.Split "a  b  c" = (["a", "b", "c"], none) ∧
    scnrSplit4.Split "a  b  c" = (["a", "b", "c"], some (.fieldCountMismatch 4 3)) := by
  refine ⟨fun scnr row => ?_, by decide, by decide⟩
  unfold Scanner.Split
  by_cases h : ((scnr.inputDelimiter.split row).length : Int) = scnr.expectedFieldCount <;>
    simp [h]

/-- Claim C1 counterexample: with `expectedFieldCount = 0` — the value the
claim calls "unchecked" — Split still compares and errors: on "a  b  c" it
returns the three fields together with a mismatch error, refuting "with
expectedFieldCount = 0 no error is ever returned". -/
theorem claimC1_counterexample :
    scnrSplit0.expectedFieldCount = 0 ∧
    (scnrSplit0.Split "a  b  c").1 = ["a", "b", "c"] ∧
    (scnrSplit0.Split "a  b  c").2.isSome = true := by decide

/-- Claim C3: on the corpus fixture row whose last field is
`Unit 12.Ab.34 message (789)`, with the corpus rule set, Extract returns
extracted values `["12.Ab.34", "789"]` with no errors and rewrites that field
in place to `Unit {} message ({})`. -/
theorem claimC3 :
    scnrC3.Extract rowC3 =
      (["2023-10-07 12:00:00.00 MDT", "0", "0", "notification", "debug", "multi word type",
        "sw_a", "Unit \x7b\x7d message (\x7b\x7d)"],
       ["12.Ab.34", "789"], []) := by decide

/-- Claim C9: Filter drops a row exactly when a configured negative filter
matches it or a configured positive filter fails to match it; the negative
filter is checked first, so a row matching both is dropped, and with neither
filter configured no row is ever dropped. -/
theorem claimC9 :
    ∀ (scnr : Scanner) (row : String),
      scnr.Filter row = true ↔
        ((∃ f, scnr.negativeFilter = some f ∧ f.matchString row = true) ∨
         (∃ f, scnr.positiveFilter = some f ∧ f.matchString row = false)) := by
  intro scnr row
  unfold Scanner.Filter negMatches posRejects
  cases hn : scnr.negativeFilter with
  | none =>
    cases hp : scnr.positiveFilter with
    | none => simp
    | some pf => cases h : pf.matchString row <;> simp [h]
  | some nf =>
    cases h : nf.matchString row with
    | true => simp [h]
    | false =>
      cases hp : scnr.positiveFilter with
      | none => simp [h]
      | some pf => cases h2 : pf.matchString row <;> simp [h, h2]

/-- The Replace loop is the left fold of its rule list. -/
theorem replaceLoop_foldl (rules : List Replacement) (row : String) :
    replaceLoop rules row = rules.foldl replacementApply row := by
  induction rules generalizing row with
  | nil => rfl
  | cons r rest ih => simp [replaceLoop, List.foldl, ih]

/-- Claim C7: Replace is the left-to-right fold of the replacement rules in
declaration order, each rule rewriting the current (possibly already
rewritten) line by replacing all matches with its template — except that a
rule whose pattern equals `DATE_TIME_REGEX` replaces each matching date-time
string by its Unix epoch seconds (e.g. `2023-10-07 12:00:00` becomes
`1696680000`). -/
theorem claimC7 :
    (∀ (scnr : Scanner) (row : String),
      scnr.Replace row = scnr.replace.foldl
        (fun r rplc =>
          if rplc.RegexString = DATE_TIME_REGEX then
            rplc.regex.replaceAllFunc dateTimeToUnixEpoch r
          else rplc.regex.replaceAllString r rplc.Replacement) row) ∧
    dateTimeToUnixEpoch "2023-10-07 12:00:00" = "1696680000" := by
  refine ⟨fun scnr row => ?_, by decide⟩
  rw [Scanner.Replace, replaceLoop_foldl]
  rfl

/-- Claim C6: the hash is a deterministic function of the hash-column values
joined by the output delimiter — two field sequences with identical
hash-column values produce the identical hash string, and hence leave the
scanner's hash state identically keyed and valued. -/
theorem claimC6 :
    ∀ (scnr : Scanner) (s1 s2 : List String) (fmt : HashFormat),
      getAll s1 scnr.HashColumns = getAll s2 scnr.HashColumns →
      hashKey scnr s1 fmt = hashKey scnr s2 fmt ∧
      (scnr.SplitsExcludeHashColumns s1 fmt).map (fun r => r.2) =
        (scnr.SplitsExcludeHashColumns s2 fmt).map (fun r => r.2) := by
  intro scnr s1 s2 fmt h
  constructor
  · unfold hashKey
    rw [h]
  · unfold Scanner.SplitsExcludeHashColumns
    dsimp only
    rw [h]
    cases e : getAll s2 scnr.HashColumns <;> simp

/-- Witness for claim C6 at a concrete input: two distinct rows agreeing on
hash column 0. -/
theorem claimC6_witness :
    getAll ["a", "x"] scnrHash1.HashColumns = getAll ["a", "y"] scnrHash1.HashColumns ∧
    (hashKey scnrHash1 ["a", "x"] .STRING = hashKey scnrHash1 ["a", "y"] .STRING ∧
      (scnrHash1.SplitsExcludeHashColumns ["a", "x"] .STRING).map (fun r => r.2) =
        (scnrHash1.SplitsExcludeHashColumns ["a", "y"] .STRING).map (fun r => r.2)) :=
  ⟨by decide, claimC6 scnrHash1 ["a", "x"] ["a", "y"] .STRING (by decide)⟩

/-- An index read on a list succeeds exactly below the length. -/
theorem isSome_idx {α : Type} (l : List α) (i : Nat) : l[i]?.isSome ↔ i < l.length := by
  cases e : l[i]? with
  | none =>
    rw [List.getElem?_eq_none_iff] at e
    simp
    omega
  | some v =>
    have h : i < l.length := by
      by_contra hx
      rw [List.getElem?_eq_none_iff.mpr (by omega)] at e
      exact Option.noConfusion e
    simp [h]

/-- The hash-column gather succeeds exactly when every configured hash column
is below the field count. -/
theorem getAll_isSome (splits : List String) (hc : List Nat) :
    (getAll splits hc).isSome ↔ ∀ v ∈ hc, v < splits.length := by
  induction hc with
  | nil => simp [getAll]
  | cons c rest ih =>
    simp only [getAll]
    cases e1 : splits[c]? with
    | none =>
      have hc1 : splits.length ≤ c := by
        rw [← List.getElem?_eq_none_iff]
        exact e1
      cases e2 : getAll splits rest <;> simp <;> intro h <;> omega
    | some s =>
      have hc1 : c < splits.length := by
        rw [← isSome_idx]
        simp [e1]
      cases e2 : getAll splits rest with
      | none =>
        have h2 := ih
        rw [e2] at h2
        simp at h2
        obtain ⟨v, hv1, hv2⟩ := h2
        constructor
        · intro hx
          exact absurd hx (by simp)
        · intro h
          have := h v (List.mem_cons_of_mem c hv1)
          omega
      | some l =>
        have h2 := ih
        rw [e2] at h2
        simp at h2
        simp [hc1]
        exact h2

/-- A column loop over only out-of-range columns changes nothing. -/
theorem extractColumns_oob (extrct : Extract) (cols : List Nat) (row : List String)
    (extracts : List String) (errors : List PError)
    (h : ∀ c ∈ cols, row.length ≤ c) :
    extractColumns extrct cols row extracts errors = (row, extracts, errors) := by
  induction cols with
  | nil => rfl
  | cons c rest ih =>
    have h1 : ¬c < row.length := by
      have := h c (by simp)
      omega
    rw [extractColumns, dif_neg h1]
    exact ih fun c2 hm => h c2 (by simp [hm])

/-- Claim C10: SplitsExcludeHashColumns indexes every configured hash column
without a bounds check — it avoids the out-of-bounds access (Go panic,
modelled as `none`) exactly when every hash column is below the field count;
by contrast, the Extract column loop run over any out-of-range columns leaves
row, extracted values and errors untouched (the silent skip). -/
theorem claimC10 :
    ∀ (scnr : Scanner) (splits : List String) (fmt : HashFormat),
      ((scnr.SplitsExcludeHashColumns splits fmt).isSome ↔
        ∀ v ∈ scnr.HashColumns, v < splits.length) ∧
      ∀ (extrct : Extract) (extracts : List String) (errors : List PError),
        extractColumns extrct (scnr.HashColumns.filter fun v => splits.length ≤ v)
          splits extracts errors = (splits, extracts, errors) := by
  intro scnr splits fmt
  constructor
  · rw [← getAll_isSome]
    unfold Scanner.SplitsExcludeHashColumns
    cases e : getAll splits scnr.HashColumns <;> simp [e]
  · intro extrct extracts errors
    refine extractColumns_oob extrct _ splits extracts errors fun c hm => ?_
    have := List.of_mem_filter hm
    exact of_decide_eq_true this

/-- The inner match loop appends exactly the in-range submatch strings and
one error per out-of-range match, in match order. -/
theorem extractMatches_spec (extrct : Extract) (sbms : List (List String))
    (extracts : List String) (errors : List PError) :
    extractMatches extrct sbms extracts errors =
      (extracts ++ sbms.filterMap fun sbm => sbm[extrct.Submatch]?,
       errors ++ (sbms.filter fun sbm => sbm.length ≤ extrct.Submatch).map
         fun sbm => .submatchOutOfRange extrct.Submatch sbm extrct.RegexString) := by
  induction sbms generalizing extracts errors with
  | nil => simp [extractMatches]
  | cons sbm rest ih =>
    rw [extractMatches]
    by_cases h : sbm.length ≤ extrct.Submatch
    · rw [dif_pos h, ih]
      have hnone : sbm[extrct.Submatch]? = none := List.getElem?_eq_none_iff.mpr h
      simp [hnone, h]
    · rw [dif_neg h, ih]
      have hlt : extrct.Submatch < sbm.length := by omega
      have hsome : sbm[extrct.Submatch]? = some (sbm.get ⟨extrct.Submatch, hlt⟩) := by
        rw [List.getElem?_eq_getElem hlt]
        simp
      simp [hsome, h]

/-- The column loop equals its specification rendering, with accumulators
threaded by appending. -/
theorem extractColumns_spec (extrct : Extract) (cols : List Nat) (row : List String)
    (extracts : List String) (errors : List PError) :
    extractColumns extrct cols row extracts errors =
      ((extractColumnsSpec extrct cols row).1,
       extracts ++ (extractColumnsSpec extrct cols row).2.1,
       errors ++ (extractColumnsSpec extrct cols row).2.2) := by
  induction cols generalizing row extracts errors with
  | nil => simp [extractColumns, extractColumnsSpec]
  | cons c rest ih =>
    rw [extractColumns, extractColumnsSpec]
    by_cases h : c < row.length
    · rw [dif_pos h, dif_pos h]
      dsimp only
      rw [extractMatches_spec, ih]
      simp [fieldExtracts, fieldErrors]
    · rw [dif_neg h, dif_neg h]
      exact ih row extracts errors

/-- The rule loop equals its specification rendering, with accumulators
threaded by appending. -/
theorem extractRules_spec (rules : List Extract) (row : List String)
    (extracts : List String) (errors : List PError) :
    extractRules rules row extracts errors =
      ((extractSpec rules row).1,
       extracts ++ (extractSpec rules row).2.1,
       errors ++ (extractSpec rules row).2.2) := by
  induction rules generalizing row extracts errors with
  | nil => simp [extractRules, extractSpec]
  | cons r rest ih =>
    rw [extractRules, extractSpec]
    by_cases h : r.RegexString = ""
    · rw [if_pos h, if_pos h]
      exact ih row extracts errors
    · rw [if_neg h, if_neg h]
      dsimp only
      rw [extractColumns_spec, ih]
      simp

/-- Claim C8: Extract equals its per-match specification — for every rule (in
order), every in-range column (in order) and every match (in order), an
out-of-range submatch index contributes exactly one non-fatal error and no
extracted value, an in-range one contributes exactly its submatch string, and
processing always continues through the remaining matches, columns and rules,
leaving the contributions of all other matches unaffected. -/
theorem claimC8 :
    ∀ (scnr : Scanner) (row : List String),
      scnr.Extract row = extractSpec scnr.extract row := by
  intro scnr row
  rw [Scanner.Extract, extractRules_spec]
  simp

/-- With no hash columns left the reduction loop copies the remaining fields. -/
theorem sehc_nil (h : String) (splits : List String) :
    ∀ (i : Nat) (b : Bool), sehcLoop h splits i [] b = splits := by
  induction splits with
  | nil => intro i b; rfl
  | cons s rest ih =>
    intro i b
    rw [sehcLoop]
    rw [ih]

/-- With no hash columns `keepNotIn` keeps everything. -/
theorem keepNotIn_nil (l : List String) : ∀ i : Nat, keepNotIn l i [] = l := by
  induction l with
  | nil => intro i; rfl
  | cons x xs ih => intro i; simp [keepNotIn, ih]

/-- Function `keepNotIn` only consults membership of positions at or after its start
index. -/
theorem keepNotIn_congr (l : List String) :
    ∀ (i : Nat) (hc1 hc2 : List Nat), (∀ j, i ≤ j → (j ∈ hc1 ↔ j ∈ hc2)) →
      keepNotIn l i hc1 = keepNotIn l i hc2 := by
  induction l with
  | nil => intro i hc1 hc2 _; rfl
  | cons x xs ih =>
    intro i hc1 hc2 h
    rw [keepNotIn, keepNotIn]
    by_cases hm : i ∈ hc1
    · rw [if_pos hm, if_pos ((h i le_rfl).mp hm)]
      exact ih (i + 1) hc1 hc2 fun j hj => h j (by omega)
    · rw [if_neg hm, if_neg fun hx => hm ((h i le_rfl).mpr hx)]
      rw [ih (i + 1) hc1 hc2 fun j hj => h j (by omega)]

/-- Once the hash has been inserted, the reduction loop drops exactly the
fields at the remaining (sorted, not yet reached) hash columns. -/
theorem sehc_inserted (h : String) (splits : List String) :
    ∀ (i : Nat) (shc : List Nat), List.Pairwise (· < ·) shc → (∀ c ∈ shc, i ≤ c) →
      sehcLoop h splits i shc true = keepNotIn splits i shc := by
  induction splits with
  | nil => intro i shc _ _; rfl
  | cons s rest ih =>
    intro i shc hp hge
    cases shc with
    | nil => rw [sehc_nil, keepNotIn_nil]
    | cons c shc2 =>
      have hc2gt : ∀ x ∈ shc2, c < x := (List.pairwise_cons.mp hp).1
      by_cases hic : i = c
      · subst hic
        rw [sehcLoop, keepNotIn]
        rw [if_pos rfl, if_pos (List.mem_cons_self i shc2)]
        rw [ih (i + 1) shc2 (List.pairwise_cons.mp hp).2 fun x hx => by
          have := hc2gt x hx
          omega]
        exact keepNotIn_congr rest (i + 1) shc2 (i :: shc2) fun j hj => by
          simp [List.mem_cons]
          intro hji
          omega
      · have hlt : i < c := lt_of_le_of_ne (hge c (List.mem_cons_self c shc2)) hic
        have hnm : i ∉ c :: shc2 := by
          simp [List.mem_cons]
          refine ⟨hic, fun hx => ?_⟩
          have := hc2gt i hx
          omega
        rw [sehcLoop, keepNotIn]
        rw [if_neg hic, if_neg hnm]
        rw [ih (i + 1) (c :: shc2) hp fun x hx => by
          rcases List.mem_cons.mp hx with h1 | h1
          · omega
          · have := hc2gt x h1
            omega]

/-- Before the hash has been inserted, the reduction loop keeps everything up
to the first hash column, inserts the hash there, and proceeds as the
drop-only phase on the rest. -/
theorem sehc_main (h : String) (splits : List String) :
    ∀ (i c : Nat) (shc2 : List Nat), List.Pairwise (· < ·) (c :: shc2) →
      i ≤ c → c < i + splits.length →
      sehcLoop h splits i (c :: shc2) false =
        splits.take (c - i) ++ h :: keepNotIn (splits.drop (c - i + 1)) (c + 1) shc2 := by
  induction splits with
  | nil =>
    intro i c shc2 _ hle hlt
    exfalso
    simp at hlt
    omega
  | cons s rest ih =>
    intro i c shc2 hp hle hlt
    have hc2gt : ∀ x ∈ shc2, c < x := (List.pairwise_cons.mp hp).1
    by_cases hic : i = c
    · subst hic
      rw [sehcLoop, if_pos rfl, if_neg Bool.false_ne_true]
      simp only [Nat.sub_self, List.take_zero, List.nil_append, Nat.zero_add, List.drop_succ_cons,
        List.drop_zero]
      rw [sehc_inserted h rest (i + 1) shc2 (List.pairwise_cons.mp hp).2 fun x hx => by
        have := hc2gt x hx
        omega]
    · have hlt2 : i < c := lt_of_le_of_ne hle hic
      rw [sehcLoop, if_neg hic]
      rw [ih (i + 1) c shc2 hp (by omega) (by simp at hlt ⊢; omega)]
      have e1 : c - i = (c - (i + 1)) + 1 := by omega
      rw [e1]
      simp [List.take_succ_cons, List.drop_succ_cons]

/-- Splitting `keepNotIn` at its first (least) column. -/
theorem keepNotIn_split (l : List String) :
    ∀ (i c : Nat) (shc2 : List Nat), (∀ x ∈ shc2, c < x) → i ≤ c → c < i + l.length →
      keepNotIn l i (c :: shc2) =
        l.take (c - i) ++ keepNotIn (l.drop (c - i + 1)) (c + 1) shc2 := by
  induction l with
  | nil =>
    intro i c shc2 _ hle hlt
    exfalso
    simp at hlt
    omega
  | cons x xs ih =>
    intro i c shc2 hgt hle hlt
    by_cases hic : i = c
    · subst hic
      rw [keepNotIn, if_pos (List.mem_cons_self i shc2)]
      simp only [Nat.sub_self, List.take_zero, List.nil_append, List.drop_succ_cons,
        List.drop_zero]
      exact keepNotIn_congr xs (i + 1) (i :: shc2) shc2 fun j hj => by
        simp [List.mem_cons]
        omega
    · have hlt2 : i < c := lt_of_le_of_ne hle hic
      have hnm : i ∉ c :: shc2 := by
        simp [List.mem_cons]
        refine ⟨hic, fun hx => ?_⟩
        have := hgt i hx
        omega
      rw [keepNotIn, if_neg hnm]
      rw [ih (i + 1) c shc2 hgt (by omega) (by simp at hlt ⊢; omega)]
      have e1 : c - i = (c - (i + 1)) + 1 := by omega
      rw [e1]
      simp [List.take_succ_cons, List.drop_succ_cons]

/-- A strictly ascending list of naturals lying in `[a, b)` has at most
`b - a` elements. -/
theorem pairwise_lt_length_le :
    ∀ (l : List Nat) (a b : Nat), List.Pairwise (· < ·) l → (∀ x ∈ l, a ≤ x ∧ x < b) →
      l.length ≤ b - a := by
  intro l
  induction l with
  | nil =>
    intro a b _ _
    simp
  | cons x xs ih =>
    intro a b hp hb
    have h1 := hb x (List.mem_cons_self x xs)
    have h2 : ∀ y ∈ xs, x + 1 ≤ y ∧ y < b := fun y hy =>
      ⟨by have := (List.pairwise_cons.mp hp).1 y hy; omega,
        (hb y (List.mem_cons_of_mem x hy)).2⟩
    have h3 := ih (x + 1) b (List.pairwise_cons.mp hp).2 h2
    simp only [List.length_cons]
    omega

/-- Dropping the fields at a sorted in-range column list removes exactly one
field per column. -/
theorem keepNotIn_length :
    ∀ (shc : List Nat) (l : List String) (i : Nat), List.Pairwise (· < ·) shc →
      (∀ c ∈ shc, i ≤ c ∧ c < i + l.length) →
      (keepNotIn l i shc).length = l.length - shc.length := by
  intro shc
  induction shc with
  | nil =>
    intro l i _ _
    rw [keepNotIn_nil]
    simp
  | cons c shc2 ih =>
    intro l i hp hb
    have hc2gt : ∀ x ∈ shc2, c < x := (List.pairwise_cons.mp hp).1
    have hble := hb c (List.mem_cons_self c shc2)
    have hkb : shc2.length ≤ (i + l.length) - (c + 1) :=
      pairwise_lt_length_le shc2 (c + 1) (i + l.length) (List.pairwise_cons.mp hp).2
        fun x hx => ⟨by have := hc2gt x hx; omega, (hb x (List.mem_cons_of_mem c hx)).2⟩
    rw [keepNotIn_split l i c shc2 hc2gt hble.1 hble.2]
    rw [List.length_append, List.length_take, Nat.min_eq_left (by omega)]
    rw [ih (l.drop (c - i + 1)) (c + 1) (List.pairwise_cons.mp hp).2 fun x hx => by
      constructor
      · have := hc2gt x hx
        omega
      · have := (hb x (List.mem_cons_of_mem c hx)).2
        simp
        omega]
    rw [List.length_drop]
    simp only [List.length_cons]
    omega

/-- Claim C4: for a nonempty, strictly ascending, in-range hash-column list,
SplitsExcludeHashColumns keeps the fields before the first hash column,
inserts the single hash there, and keeps every other non-hash-column field in
original order; the result has length `fields - hashColumns + 1` and carries
the hash at the index of the first (lowest) hash column. -/
theorem claimC4 :
    ∀ (scnr : Scanner) (splits : List String) (fmt : HashFormat) (c0 : Nat) (hcr : List Nat),
      scnr.HashColumns = c0 :: hcr →
      List.Pairwise (· < ·) scnr.HashColumns →
      (∀ v ∈ scnr.HashColumns, v < splits.length) →
      ∃ hs out scnr2,
        hashKey scnr splits fmt = some hs ∧
        scnr.SplitsExcludeHashColumns splits fmt = some (out, scnr2) ∧
        out = splits.take c0 ++ hs :: keepNotIn (splits.drop (c0 + 1)) (c0 + 1) hcr ∧
        out.length = splits.length - scnr.HashColumns.length + 1 ∧
        out[c0]? = some hs := by
  intro scnr splits fmt c0 hcr hcols hp hb
  have hsome : (getAll splits scnr.HashColumns).isSome := (getAll_isSome _ _).mpr hb
  obtain ⟨hsplits, hget⟩ := Option.isSome_iff_exists.mp hsome
  have hlt0 : c0 < splits.length := by
    refine hb c0 ?_
    rw [hcols]
    exact List.mem_cons_self c0 hcr
  have hgtr : ∀ x ∈ hcr, c0 < x := by
    rw [hcols] at hp
    exact (List.pairwise_cons.mp hp).1
  have hout : sehcLoop (Hash (String.intercalate scnr.OutputDelimiter hsplits) fmt)
      splits 0 scnr.HashColumns false =
      splits.take c0 ++ (Hash (String.intercalate scnr.OutputDelimiter hsplits) fmt) ::
        keepNotIn (splits.drop (c0 + 1)) (c0 + 1) hcr := by
    rw [hcols]
    have := sehc_main (Hash (String.intercalate scnr.OutputDelimiter hsplits) fmt)
      splits 0 c0 hcr (hcols ▸ hp) (Nat.zero_le c0) (by omega)
    simpa using this
  have hxlt : ∀ x ∈ hcr, x < splits.length := fun x hx =>
    hb x (by rw [hcols]; exact List.mem_cons_of_mem c0 hx)
  have hkey : hashKey scnr splits fmt =
      some (Hash (String.intercalate scnr.OutputDelimiter hsplits) fmt) := by
    rw [hashKey, hget]
    rfl
  have hres : scnr.SplitsExcludeHashColumns splits fmt =
      some (sehcLoop (Hash (String.intercalate scnr.OutputDelimiter hsplits) fmt)
          splits 0 scnr.HashColumns false,
        { scnr with
          HashMap := setA scnr.HashMap
            (Hash (String.intercalate scnr.OutputDelimiter hsplits) fmt)
            (String.intercalate scnr.OutputDelimiter hsplits),
          HashCounts := setA scnr.HashCounts
            (Hash (String.intercalate scnr.OutputDelimiter hsplits) fmt)
            ((lookupA scnr.HashCounts
              (Hash (String.intercalate scnr.OutputDelimiter hsplits) fmt)).getD 0 + 1) }) := by
    rw [Scanner.SplitsExcludeHashColumns]
    dsimp only
    rw [hget]
  have hkb : hcr.length ≤ splits.length - (c0 + 1) := by
    have := pairwise_lt_length_le hcr (c0 + 1) splits.length
      ((List.pairwise_cons.mp (hcols ▸ hp)).2)
      fun x hx => ⟨by have := hgtr x hx; omega, hxlt x hx⟩
    omega
  have hlen : (sehcLoop (Hash (String.intercalate scnr.OutputDelimiter hsplits) fmt)
      splits 0 scnr.HashColumns false).length =
      splits.length - scnr.HashColumns.length + 1 := by
    rw [hout]
    rw [List.length_append, List.length_take, Nat.min_eq_left (by omega), List.length_cons]
    rw [keepNotIn_length hcr (splits.drop (c0 + 1)) (c0 + 1)
      ((List.pairwise_cons.mp (hcols ▸ hp)).2) fun x hx => by
        constructor
        · have := hgtr x hx
          omega
        · have := hxlt x hx
          simp
          omega]
    rw [hcols]
    simp only [List.length_cons, List.length_drop]
    omega
  have hat : (sehcLoop (Hash (String.intercalate scnr.OutputDelimiter hsplits) fmt)
      splits 0 scnr.HashColumns false)[c0]? =
      some (Hash (String.intercalate scnr.OutputDelimiter hsplits) fmt) := by
    rw [hout]
    rw [List.getElem?_append_right (by simp)]
    have e1 : c0 - (splits.take c0).length = 0 := by
      rw [List.length_take]
      omega
    rw [e1]
    simp
  exact ⟨Hash (String.intercalate scnr.OutputDelimiter hsplits) fmt,
    sehcLoop (Hash (String.intercalate scnr.OutputDelimiter hsplits) fmt)
      splits 0 scnr.HashColumns false, _, hkey, hres, hout, hlen, hat⟩

/-- Witness for claim C4 at a concrete input: hash columns 1 and 2 over four
fields. -/
theorem claimC4_witness :
    scnrHash12.HashColumns = 1 :: [2] ∧
    List.Pairwise (· < ·) scnrHash12.HashColumns ∧
    (∀ v ∈ scnrHash12.HashColumns, v < (["a", "b", "c", "d"] : List String).length) ∧
    ∃ hs out scnr2,
      hashKey scnrHash12 ["a", "b", "c", "d"] .STRING = some hs ∧
      scnrHash12.SplitsExcludeHashColumns ["a", "b", "c", "d"] .STRING = some (out, scnr2) ∧
      out = (["a", "b", "c", "d"] : List String).take 1 ++
        hs :: keepNotIn ((["a", "b", "c", "d"] : List String).drop 2) 2 [2] ∧
      out.length = (["a", "b", "c", "d"] : List String).length -
        scnrHash12.HashColumns.length + 1 ∧
      out[1]? = some hs :=
  ⟨rfl, by decide, by decide,
    claimC4 scnrHash12 ["a", "b", "c", "d"] .STRING 1 [2] rfl (by decide) (by decide)⟩

/-- Go map assignment then read at the written key. -/
theorem lookupA_setA_self {α : Type} (m : List (String × α)) (k : String) (v : α) :
    lookupA (setA m k v) k = some v := by
  induction m with
  | nil => simp [setA, lookupA]
  | cons p rest ih =>
    obtain ⟨k2, v2⟩ := p
    by_cases h : k2 = k
    · simp [setA, lookupA, h]
    · simp [setA, lookupA, h, ih]

/-- Go map assignment leaves reads at other keys unchanged. -/
theorem lookupA_setA_ne {α : Type} (m : List (String × α)) (k k2 : String) (v : α)
    (h : k ≠ k2) : lookupA (setA m k v) k2 = lookupA m k2 := by
  induction m with
  | nil => simp [setA, lookupA, h]
  | cons p rest ih =>
    obtain ⟨k3, v3⟩ := p
    by_cases h3 : k3 = k
    · subst h3
      simp [setA, lookupA, h]
    · simp [setA, lookupA, h3, ih]

/-- Function `hashKey` reads only the hash columns and the output delimiter. -/
theorem hashKey_fields (s1 s2 : Scanner) (hc : s1.HashColumns = s2.HashColumns)
    (hd : s1.OutputDelimiter = s2.OutputDelimiter) (r : List String) (fmt : HashFormat) :
    hashKey s1 r fmt = hashKey s2 r fmt := by
  rw [hashKey, hashKey, hc, hd]

/-- Function `concatOf` reads only the hash columns and the output delimiter. -/
theorem concatOf_fields (s1 s2 : Scanner) (hc : s1.HashColumns = s2.HashColumns)
    (hd : s1.OutputDelimiter = s2.OutputDelimiter) (r : List String) :
    concatOf s1 r = concatOf s2 r := by
  rw [concatOf, concatOf, hc, hd]

/-- The map key is the hash of the joined concatenation. -/
theorem hashKey_concat (scnr : Scanner) (r : List String) (fmt : HashFormat) :
    hashKey scnr r fmt = (concatOf scnr r).map fun cs => Hash cs fmt := by
  rw [hashKey, concatOf]
  cases getAll r scnr.HashColumns <;> simp

/-- Searching with `find?` over an append searches left to right. -/
theorem findQ_append {α : Type} (l1 l2 : List α) (p : α → Bool) :
    (l1 ++ l2).find? p = ((l1.find? p).orElse fun _ => l2.find? p) := by
  induction l1 with
  | nil => simp
  | cons x xs ih =>
    cases e : p x <;> simp [List.find?, e, ih]

/-- Function `lastValSpec` reads only the hash columns and the output delimiter of its
scanner. -/
theorem lastValSpec_fields (s1 s2 : Scanner) (hc : s1.HashColumns = s2.HashColumns)
    (hd : s1.OutputDelimiter = s2.OutputDelimiter) (fmt : HashFormat) (h : String)
    (rows : List (List String)) (old : Option String) :
    lastValSpec s1 fmt h rows old = lastValSpec s2 fmt h rows old := by
  rw [lastValSpec, lastValSpec]
  simp only [show ∀ r2, hashKey s1 r2 fmt = hashKey s2 r2 fmt from
    fun r2 => hashKey_fields s1 s2 hc hd r2 fmt]
  cases rows.reverse.find? fun r => decide (hashKey s2 r fmt = some h) with
  | none => rfl
  | some r => exact concatOf_fields s1 s2 hc hd r

/-- Processing one more (earlier) row shifts the pending previous value. -/
theorem lastValSpec_cons (scnr : Scanner) (fmt : HashFormat) (h : String)
    (r : List String) (rest : List (List String)) (old : Option String) :
    lastValSpec scnr fmt h (r :: rest) old =
      lastValSpec scnr fmt h rest
        (if hashKey scnr r fmt = some h then concatOf scnr r else old) := by
  rw [lastValSpec, lastValSpec, List.reverse_cons, findQ_append]
  cases e : rest.reverse.find? fun r2 => decide (hashKey scnr r2 fmt = some h) with
  | some rr => simp [e]
  | none =>
    by_cases hp : hashKey scnr r fmt = some h
    · simp [e, List.find?, hp]
    · simp [e, List.find?, hp]

/-- No processed rows leave the previous value. -/
theorem lastValSpec_nil (scnr : Scanner) (fmt : HashFormat) (h : String) (old : Option String) :
    lastValSpec scnr fmt h [] old = old := by
  rw [lastValSpec]
  simp

/-- Zero additional occurrences leave the count entry unchanged. -/
theorem countsSpec_zero (old : Option Nat) : countsSpec old 0 = old := by
  cases old <;> simp [countsSpec]

/-- Incrementing the entry first and then adding `n` equals adding `n + 1`. -/
theorem countsSpec_shift (old : Option Nat) (n : Nat) :
    countsSpec (some (old.getD 0 + 1)) n = countsSpec old (n + 1) := by
  cases old <;> simp [countsSpec] <;> omega

/-- One in-bounds reduction step: the concatenation exists, and the returned
scanner updates exactly the two hash maps at the key `Hash cs fmt` — the
value map by overwriting with the current concatenation, the count map by
incrementing (from zero when absent). -/
theorem sehcStep (scnr : Scanner) (splits : List String) (fmt : HashFormat)
    (hb : ∀ v ∈ scnr.HashColumns, v < splits.length) :
    ∃ cs out scnrMid,
      concatOf scnr splits = some cs ∧
      scnr.SplitsExcludeHashColumns splits fmt = some (out, scnrMid) ∧
      scnrMid.HashColumns = scnr.HashColumns ∧
      scnrMid.OutputDelimiter = scnr.OutputDelimiter ∧
      scnrMid.HashMap = setA scnr.HashMap (Hash cs fmt) cs ∧
      scnrMid.HashCounts = setA scnr.HashCounts (Hash cs fmt)
        ((lookupA scnr.HashCounts (Hash cs fmt)).getD 0 + 1) := by
  obtain ⟨hsplits, hget⟩ := Option.isSome_iff_exists.mp ((getAll_isSome _ _).mpr hb)
  refine ⟨String.intercalate scnr.OutputDelimiter hsplits,
    sehcLoop (Hash (String.intercalate scnr.OutputDelimiter hsplits) fmt)
      splits 0 scnr.HashColumns false,
    { scnr with
      HashMap := setA scnr.HashMap
        (Hash (String.intercalate scnr.OutputDelimiter hsplits) fmt)
        (String.intercalate scnr.OutputDelimiter hsplits),
      HashCounts := setA scnr.HashCounts
        (Hash (String.intercalate scnr.OutputDelimiter hsplits) fmt)
        ((lookupA scnr.HashCounts
          (Hash (String.intercalate scnr.OutputDelimiter hsplits) fmt)).getD 0 + 1) },
    ?_, ?_, rfl, rfl, rfl, rfl⟩
  · rw [concatOf, hget]
    rfl
  · rw [Scanner.SplitsExcludeHashColumns]
    dsimp only
    rw [hget]

/-- Characterization of a full scan: it succeeds when every row is in bounds,
preserves the rule fields, and leaves, for every hash, the count of the rows
that produced it added onto the initial entry and the concatenation of the
most recent row that produced it (else the initial value). -/
theorem runSplits_spec :
    ∀ (rows : List (List String)) (scnr : Scanner) (fmt : HashFormat),
      (∀ r ∈ rows, ∀ v ∈ scnr.HashColumns, v < r.length) →
      ∃ scnr2, runSplits scnr fmt rows = some scnr2 ∧
        scnr2.HashColumns = scnr.HashColumns ∧
        scnr2.OutputDelimiter = scnr.OutputDelimiter ∧
        (∀ h, lookupA scnr2.HashCounts h = countsSpec (lookupA scnr.HashCounts h)
          (rows.filter fun r => decide (hashKey scnr r fmt = some h)).length) ∧
        (∀ h, lookupA scnr2.HashMap h =
          lastValSpec scnr fmt h rows (lookupA scnr.HashMap h)) := by
  intro rows
  induction rows with
  | nil =>
    intro scnr fmt hb
    refine ⟨scnr, rfl, rfl, rfl, fun h => ?_, fun h => ?_⟩
    · rw [List.filter_nil, List.length_nil, countsSpec_zero]
    · rw [lastValSpec_nil]
  | cons r rest ih =>
    intro scnr fmt hb
    obtain ⟨cs, out, scnrMid, hcs, hstep, hcols, hdelim, hmap, hcounts⟩ :=
      sehcStep scnr r fmt (hb r (List.mem_cons_self r rest))
    have hbrest : ∀ r2 ∈ rest, ∀ v ∈ scnrMid.HashColumns, v < r2.length := by
      intro r2 hr2 v hv
      rw [hcols] at hv
      exact hb r2 (List.mem_cons_of_mem r hr2) v hv
    obtain ⟨scnr2, hrun, hcols2, hdelim2, hcounts2, hmap2⟩ := ih scnrMid fmt hbrest
    have hkmid : ∀ r2, hashKey scnrMid r2 fmt = hashKey scnr r2 fmt := fun r2 =>
      hashKey_fields scnrMid scnr hcols hdelim r2 fmt
    have hkeyr : hashKey scnr r fmt = some (Hash cs fmt) := by
      rw [hashKey_concat, hcs]
      rfl
    refine ⟨scnr2, ?_, ?_, ?_, fun h => ?_, fun h => ?_⟩
    · rw [runSplits, hstep]
      exact hrun
    · rw [hcols2, hcols]
    · rw [hdelim2, hdelim]
    · rw [hcounts2 h]
      simp only [hkmid]
      rw [hcounts]
      by_cases hkh : Hash cs fmt = h
      · subst hkh
        rw [lookupA_setA_self]
        rw [List.filter_cons_of_pos (by simp [hkeyr])]
        rw [List.length_cons, countsSpec_shift]
      · rw [lookupA_setA_ne _ _ _ _ hkh]
        rw [List.filter_cons_of_neg (by simp [hkeyr]; exact hkh)]
    · rw [hmap2 h]
      rw [lastValSpec_fields scnrMid scnr hcols hdelim]
      rw [lastValSpec_cons]
      rw [hmap]
      by_cases hkh : Hash cs fmt = h
      · subst hkh
        rw [lookupA_setA_self]
        rw [if_pos hkeyr, hcs]
      · rw [lookupA_setA_ne _ _ _ _ hkh]
        rw [if_neg (by rw [hkeyr]; simp; exact hkh)]

/-- Claim C5 (amended): during a sequence of SplitsExcludeHashColumns calls,
hash-state entries are only ever added, never deleted (an existing value-map
key keeps some value, an existing count never decreases); starting from empty
maps, the count stored for each hash equals the number of processed rows
whose hash-column concatenation produced that hash, and the value stored for
each hash is the concatenation from the most recent row that produced it
(last-write-wins — which agrees with the claimed first-seen value only when
no two rows with different concatenations collide under MD5). -/
theorem claimC5_amended :
    (∀ (scnr1 : Scanner) (splits : List String) (fmt : HashFormat)
        (out : List String) (scnr2 : Scanner),
      scnr1.SplitsExcludeHashColumns splits fmt = some (out, scnr2) →
      (∀ h, (lookupA scnr1.HashMap h).isSome → (lookupA scnr2.HashMap h).isSome) ∧
      (∀ h n, lookupA scnr1.HashCounts h = some n →
        ∃ m, n ≤ m ∧ lookupA scnr2.HashCounts h = some m)) ∧
    (∀ (scnr : Scanner) (fmt : HashFormat) (rows : List (List String)),
      (∀ r ∈ rows, ∀ v ∈ scnr.HashColumns, v < r.length) →
      scnr.HashMap = [] → scnr.HashCounts = [] →
      ∃ scnr2, runSplits scnr fmt rows = some scnr2 ∧
        (∀ h, lookupA scnr2.HashCounts h =
          countsSpec none (rows.filter fun r => decide (hashKey scnr r fmt = some h)).length) ∧
        (∀ h, lookupA scnr2.HashMap h = lastValSpec scnr fmt h rows none)) := by
  constructor
  · intro scnr1 splits fmt out scnr2 heq
    rw [Scanner.SplitsExcludeHashColumns] at heq
    dsimp only at heq
    cases e : getAll splits scnr1.HashColumns with
    | none =>
      rw [e] at heq
      exact absurd heq (by simp)
    | some hsplits =>
      rw [e] at heq
      simp only [Option.some.injEq, Prod.mk.injEq] at heq
      obtain ⟨houteq, hscnr2⟩ := heq
      constructor
      · intro h hsome1
        rw [← hscnr2]
        dsimp only
        by_cases hkh :
            Hash (String.intercalate scnr1.OutputDelimiter hsplits) fmt = h
        · subst hkh
          rw [lookupA_setA_self]
          simp
        · rw [lookupA_setA_ne _ _ _ _ hkh]
          exact hsome1
      · intro h n hn
        rw [← hscnr2]
        dsimp only
        by_cases hkh :
            Hash (String.intercalate scnr1.OutputDelimiter hsplits) fmt = h
        · subst hkh
          rw [lookupA_setA_self, hn]
          exact ⟨n + 1, by omega, rfl⟩
        · rw [lookupA_setA_ne _ _ _ _ hkh]
          exact ⟨n, le_rfl, hn⟩
  · intro scnr fmt rows hb hm hc
    obtain ⟨scnr2, hrun, _, _, hcounts2, hmap2⟩ := runSplits_spec rows scnr fmt hb
    refine ⟨scnr2, hrun, fun h => ?_, fun h => ?_⟩
    · rw [hcounts2 h, hc]
      rfl
    · rw [hmap2 h, hm]
      rfl

/-- Witness for claim C5 at concrete inputs: one reduction step from a
pre-populated state (monotonicity part) and a three-row scan from the empty
state (count and value part). -/
theorem claimC5_witness :
    ((∀ h, (lookupA scnrPre.HashMap h).isSome → (lookupA scnrPost.HashMap h).isSome) ∧
      (∀ h n, lookupA scnrPre.HashCounts h = some n →
        ∃ m, n ≤ m ∧ lookupA scnrPost.HashCounts h = some m)) ∧
    (∃ scnr2, runSplits scnrHash1 .STRING [["a"], ["b"], ["a"]] = some scnr2 ∧
      (∀ h, lookupA scnr2.HashCounts h =
        countsSpec none (([["a"], ["b"], ["a"]] : List (List String)).filter
          (fun r => decide (hashKey scnrHash1 r .STRING = some h))).length) ∧
      (∀ h, lookupA scnr2.HashMap h =
        lastValSpec scnrHash1 .STRING h [["a"], ["b"], ["a"]] none)) :=
  ⟨claimC5_amended.1 scnrPre ["a"] .STRING [Hash "a" .STRING] scnrPost rfl,
    claimC5_amended.2 scnrHash1 .STRING [["a"], ["b"], ["a"]] (by decide) rfl rfl⟩

/-- Claim C5 counterexample: the two collision strings are distinct rows that
produce the same hash; after processing `[sColl1]` then `[sColl2]`, the value
map holds `sColl2` under that hash — the concatenation of the most recent
row, not of the first row `sColl1` the claim requires (Go's
`scnr.HashMap[hash] = hashString` overwrites on every call). -/
theorem claimC5_counterexample :
    sColl1 ≠ sColl2 ∧
    hashKey scnrHash1 [sColl1] .STRING = hashKey scnrHash1 [sColl2] .STRING ∧
    (runSplits scnrHash1 .STRING [[sColl1], [sColl2]]).map
      (fun s => lookupA s.HashMap (Hash sColl1 .STRING)) = some (some sColl2) := by
  refine ⟨by decide, by decide, by decide⟩

end GoParser
